import Mathlib

/-!
Verification of the time-series alignment and aggregation pipeline of the
Msc-COM7003-AI-Model repository, shallowly embedded in Lean.

Dates are modelled as integers (calendar days), cell values as rationals;
a missing cell (pandas NaN) is `none`. Each Python fragment relevant to a
claim is translated into an executable Lean definition, and the claims are
settled as theorems about those definitions.
-/

namespace MscPipeline

/-- A row of one source's value column: (date, cell); `none` models a NaN cell. -/
abbrev Row := Int × Option ℚ

/-! ## average_exchanges.py : the cross-source averaging loop (lines 98-129)

The inner loop walks every row of every exchange dataframe and, for each
non-NaN cell, adds the value into `column_sums` and bumps `column_counts`
at the row's date index.  Afterwards each cell of the result is set to
sum/count when count > 0 and to NaN otherwise. -/

/-- One iteration of the row loop of `average_exchanges`: a non-NaN cell at
date `d` is added into the running (sum, count) accumulator, exactly as the
`pd.isna(row[col])` guard and the `+=` updates do. -/
def accumStep (d : Int) (sc : ℚ × ℕ) (r : Row) : ℚ × ℕ :=
  match r.2 with
  | none => sc
  | some v => if r.1 = d then (sc.1 + v, sc.2 + 1) else sc

/-- One exchange's contribution to the running (sum, count) accumulator at
date `d`: the fold over its rows performed by `for _, row in df.iterrows()`. -/
def accumRows (d : Int) (rows : List Row) (sc : ℚ × ℕ) : ℚ × ℕ :=
  rows.foldl (accumStep d) sc

/-- The (column_sums[col][idx], column_counts[col][idx]) pair produced by the
outer `for exchange_name, df in exchange_data.items()` loop at date `d`. -/
def totals (exs : List (List Row)) (d : Int) : ℚ × ℕ :=
  exs.foldl (fun sc rows => accumRows d rows sc) (0, 0)

/-- The merged cell written by `average_exchanges` (lines 123-129):
sum/count when at least one source observed the date, NaN otherwise. -/
def mergedCell (exs : List (List Row)) (d : Int) : Option ℚ :=
  let sc := totals exs d
  if 0 < sc.2 then some (sc.1 / sc.2) else none

/-- The observed (non-NaN) values one source carries at date `d`. -/
def observedAt (d : Int) (rows : List Row) : List ℚ :=
  rows.filterMap (fun r => if r.1 = d then r.2 else none)

/-- All sources' observed values at date `d`, in source order. -/
def observedVals (exs : List (List Row)) (d : Int) : List ℚ :=
  exs.flatMap (observedAt d)

/-! ## Date axes

`average_exchanges` (lines 71-77) collects the union of all dates into a
Python set and sorts it; `combine_volatility_currency` (lines 113-123)
instead intersects the two sources' date indexes. -/

/-- Insert a date into an ascending duplicate-free list, keeping it
ascending and duplicate-free. -/
def insertSorted (d : Int) : List Int → List Int
  | [] => [d]
  | x :: xs => if d < x then d :: x :: xs else if d = x then x :: xs else x :: insertSorted d xs

/-- `sorted(set(l))`: the ascending duplicate-free enumeration of `l`. -/
def dedupSort (l : List Int) : List Int := l.foldr insertSorted []

/-- The shared axis built by `average_exchanges`: the sorted union of every
source's row dates. -/
def allDates (exs : List (List Row)) : List Int :=
  dedupSort (exs.flatMap (fun rows => rows.map Prod.fst))

/-- The axis built by `combine_volatility_currency.main`:
`volatility_df.index.intersection(currency_df.index)` — only dates present
in BOTH sources survive. -/
def combineAxis (vol cur : List Row) : List Int :=
  (vol.map Prod.fst).filter (fun d => decide (d ∈ cur.map Prod.fst))

/-! ### Supporting lemmas -/

theorem observedAt_cons_none (d dr : Int) (rs : List Row) :
    observedAt d ((dr, none) :: rs) = observedAt d rs := by
  by_cases hd : dr = d <;> simp [observedAt, List.filterMap_cons, hd]

theorem observedAt_cons_some (d dr : Int) (q : ℚ) (rs : List Row) :
    observedAt d ((dr, some q) :: rs) =
      if dr = d then q :: observedAt d rs else observedAt d rs := by
  by_cases hd : dr = d <;> simp [observedAt, List.filterMap_cons, hd]

theorem accumRows_eq (d : Int) (rows : List Row) :
    ∀ sc : ℚ × ℕ,
      accumRows d rows sc = (sc.1 + (observedAt d rows).sum, sc.2 + (observedAt d rows).length) := by
  induction rows with
  | nil => intro sc; simp [accumRows, observedAt]
  | cons r rs ih =>
    intro sc
    rcases r with ⟨dr, v⟩
    cases v with
    | none =>
      have hstep : accumRows d ((dr, none) :: rs) sc = accumRows d rs sc := rfl
      rw [hstep, ih, observedAt_cons_none]
    | some q =>
      by_cases hd : dr = d
      · have hstep : accumRows d ((dr, some q) :: rs) sc = accumRows d rs (sc.1 + q, sc.2 + 1) := by
          simp [accumRows, accumStep, hd]
        rw [hstep, ih, observedAt_cons_some]
        simp [hd]
        constructor
        · ring
        · omega
      · have hstep : accumRows d ((dr, some q) :: rs) sc = accumRows d rs sc := by
          simp [accumRows, accumStep, hd]
        rw [hstep, ih, observedAt_cons_some]
        simp [hd]

theorem totals_go (d : Int) (exs : List (List Row)) :
    ∀ sc : ℚ × ℕ,
      exs.foldl (fun sc rows => accumRows d rows sc) sc
        = (sc.1 + (observedVals exs d).sum, sc.2 + (observedVals exs d).length) := by
  induction exs with
  | nil => intro sc; simp [observedVals]
  | cons rows rest ih =>
    intro sc
    rw [List.foldl_cons]
    rw [ih, accumRows_eq]
    simp [observedVals, List.flatMap_cons]
    constructor
    · ring
    · omega

theorem totals_eq (exs : List (List Row)) (d : Int) :
    totals exs d = ((observedVals exs d).sum, (observedVals exs d).length) := by
  have := totals_go d exs (0, 0)
  simpa [totals] using this

/-- C1: at every date, the cross-source merged value written by
`average_exchanges` is the arithmetic mean of exactly the sources' observed
(non-NaN) values at that date; when no source observed the date the merged
cell is NaN (missing), never a default such as 0. -/
theorem mergedCell_is_mean_of_observed (exs : List (List Row)) (d : Int) :
    mergedCell exs d =
      if observedVals exs d = [] then none
      else some ((observedVals exs d).sum / (observedVals exs d).length) := by
  unfold mergedCell
  rw [totals_eq]
  rcases h : observedVals exs d with _ | ⟨v, vs⟩
  · simp
  · simp

/-! ### The shared axis: membership and order -/

theorem mem_insertSorted (a d : Int) (l : List Int) :
    a ∈ insertSorted d l ↔ a = d ∨ a ∈ l := by
  induction l with
  | nil => simp [insertSorted]
  | cons x xs ih =>
    by_cases h1 : d < x
    · simp [insertSorted, h1]
    · by_cases h2 : d = x
      · subst h2
        rw [insertSorted, if_neg h1, if_pos rfl]
        simp only [List.mem_cons]
        tauto
      · simp [insertSorted, h1, h2, ih]
        tauto

theorem sorted_insertSorted (d : Int) (l : List Int) (h : l.Sorted (· < ·)) :
    (insertSorted d l).Sorted (· < ·) := by
  induction l with
  | nil => simp [insertSorted]
  | cons x xs ih =>
    rw [List.sorted_cons] at h
    obtain ⟨hx, hxs⟩ := h
    by_cases h1 : d < x
    · rw [insertSorted, if_pos h1, List.sorted_cons]
      refine ⟨?_, ?_⟩
      · intro b hb
        rcases List.mem_cons.mp hb with hb | hb
        · omega
        · exact lt_trans h1 (hx b hb)
      · rw [List.sorted_cons]; exact ⟨hx, hxs⟩
    · by_cases h2 : d = x
      · rw [insertSorted, if_neg h1, if_pos h2, List.sorted_cons]; exact ⟨hx, hxs⟩
      · rw [insertSorted, if_neg h1, if_neg h2, List.sorted_cons]
        refine ⟨?_, ih hxs⟩
        intro b hb
        rcases (mem_insertSorted b d xs).mp hb with hb | hb
        · omega
        · exact hx b hb

theorem mem_dedupSort (a : Int) (l : List Int) : a ∈ dedupSort l ↔ a ∈ l := by
  induction l with
  | nil => simp [dedupSort]
  | cons x xs ih =>
    rw [dedupSort, List.foldr_cons]
    rw [mem_insertSorted]
    rw [List.mem_cons]
    rw [show List.foldr insertSorted [] xs = dedupSort xs from rfl, ih]

theorem sorted_dedupSort (l : List Int) : (dedupSort l).Sorted (· < ·) := by
  induction l with
  | nil => simp [dedupSort]
  | cons x xs ih =>
    rw [dedupSort, List.foldr_cons]
    exact sorted_insertSorted x _ ih

/-- C3 counterexample: with the volatility source observed on days 1 and 2
and the currency source on days 2 and 3, the sorted union of observed dates
is [1, 2, 3], but `combine_volatility_currency` intersects the two indexes
and produces the axis [2]: day 1, observed by one input, is absent from the
output, so the output axis is not the sorted union of all observed dates. -/
theorem combineAxis_not_union :
    allDates [[((1 : Int), some (5 : ℚ)), (2, some 6)], [(2, some 7), (3, some 8)]] = [1, 2, 3]
      ∧ combineAxis [((1 : Int), some (5 : ℚ)), (2, some 6)] [(2, some 7), (3, some 8)] = [2]
      ∧ combineAxis [((1 : Int), some (5 : ℚ)), (2, some 6)] [(2, some 7), (3, some 8)]
          ≠ allDates [[((1 : Int), some (5 : ℚ)), (2, some 6)], [(2, some 7), (3, some 8)]] := by
  refine ⟨?_, ?_, ?_⟩ <;> decide

/-- C3 (amended): `average_exchanges` does build its axis as the ascending
duplicate-free union of all input dates, but `combine_volatility_currency`
builds its axis as the intersection of the two sources' date indexes, so a
date observed by only one of its inputs does not appear as a row. -/
theorem axis_characterisation :
    (∀ (exs : List (List Row)) (d : Int),
        (d ∈ allDates exs ↔ ∃ rows ∈ exs, d ∈ rows.map Prod.fst)
          ∧ (allDates exs).Sorted (· < ·))
      ∧ ∀ (vol cur : List Row) (d : Int),
          d ∈ combineAxis vol cur ↔ d ∈ vol.map Prod.fst ∧ d ∈ cur.map Prod.fst := by
  constructor
  · intro exs d
    constructor
    · rw [allDates, mem_dedupSort, List.mem_flatMap]
    · exact sorted_dedupSort _
  · intro vol cur d
    simp [combineAxis]

/-! ## Duplicate resolution

`load_exchange_data` (average_exchanges.py lines 35-43) collapses duplicate
dates with `df.groupby('Date', as_index=False).mean(numeric_only=True)` —
the NaN-skipping arithmetic mean per date key, keys sorted ascending.
`combine_volatility_currency.main` (lines 138-142) instead drops duplicate
index entries with `keep='first'`. -/

/-- The distinct dates of a series, ascending — the group keys of
`groupby('Date')`. -/
def datesOf (rows : List Row) : List Int := dedupSort (rows.map Prod.fst)

/-- The value `groupby('Date').mean()` assigns to date `d`: the mean of the
non-NaN values sharing the key, NaN when the whole group is NaN. -/
def groupMeanAt (rows : List Row) (d : Int) : Option ℚ :=
  if observedAt d rows = [] then none
  else some ((observedAt d rows).sum / (observedAt d rows).length)

/-- The series produced by `df.groupby('Date', as_index=False).mean(...)`:
one row per distinct date, in ascending key order. -/
def dedupMean (rows : List Row) : List Row :=
  (datesOf rows).map (fun d => (d, groupMeanAt rows d))

/-- The walk behind `~combined_df.index.duplicated(keep='first')`: keep a
row iff its date has not been seen earlier. -/
def dedupFirstGo (seen : List Int) : List Row → List Row
  | [] => []
  | r :: rs => if r.1 ∈ seen then dedupFirstGo seen rs else r :: dedupFirstGo (r.1 :: seen) rs

/-- The duplicate-date removal of `combine_volatility_currency.main`:
first occurrence wins. -/
def dedupFirst (rows : List Row) : List Row := dedupFirstGo [] rows

theorem dedupFirstGo_mem (seen : List Int) (rows : List Row) (r : Row) :
    r ∈ dedupFirstGo seen rows → r ∈ rows ∧ r.1 ∉ seen := by
  induction rows generalizing seen with
  | nil => intro h; simp [dedupFirstGo] at h
  | cons x xs ih =>
    intro h
    rw [dedupFirstGo] at h
    by_cases hx : x.1 ∈ seen
    · rw [if_pos hx] at h
      obtain ⟨h1, h2⟩ := ih seen h
      exact ⟨List.mem_cons_of_mem x h1, h2⟩
    · rw [if_neg hx] at h
      rcases List.mem_cons.mp h with h | h
      · subst h; exact ⟨List.mem_cons_self _ _, hx⟩
      · obtain ⟨h1, h2⟩ := ih (x.1 :: seen) h
        refine ⟨List.mem_cons_of_mem x h1, ?_⟩
        intro hc
        exact h2 (List.mem_cons_of_mem _ hc)

theorem dedupFirstGo_nodup (rows : List Row) :
    ∀ seen : List Int, ((dedupFirstGo seen rows).map Prod.fst).Nodup := by
  induction rows with
  | nil => intro seen; simp [dedupFirstGo]
  | cons x xs ih =>
    intro seen
    rw [dedupFirstGo]
    by_cases hx : x.1 ∈ seen
    · rw [if_pos hx]; exact ih seen
    · rw [if_neg hx]
      rw [List.map_cons, List.nodup_cons]
      refine ⟨?_, ih (x.1 :: seen)⟩
      intro hc
      rcases List.mem_map.mp hc with ⟨r, hr, hr1⟩
      have := (dedupFirstGo_mem _ _ _ hr).2
      rw [hr1] at this
      exact this (List.mem_cons_self _ _)

theorem dedupFirst_head_wins (d : Int) (v w : Option ℚ) (rs : List Row) :
    (d, w) ∈ dedupFirst ((d, v) :: rs) → w = v := by
  intro h
  rw [dedupFirst, dedupFirstGo] at h
  simp only [List.not_mem_nil, if_neg] at h
  rcases List.mem_cons.mp h with h | h
  · exact (Prod.mk.injEq _ _ _ _ ▸ h).2
  · have := (dedupFirstGo_mem _ _ _ h).2
    simp at this

/-- C2 counterexample: `combine_volatility_currency` resolves two
observations of 10 and 20 on the same date by keeping the first — the
result is the single observation 10, not the arithmetic mean 15 the claim
requires of every duplicate resolution in the pipeline. -/
theorem dedupFirst_not_mean :
    dedupFirst [((5 : Int), some (10 : ℚ)), (5, some 20)] = [(5, some 10)]
      ∧ dedupFirst [((5 : Int), some (10 : ℚ)), (5, some 20)] ≠ [(5, some 15)] := by
  refine ⟨?_, ?_⟩ <;> decide

/-- C2 (amended): the groupby-mean duplicate resolution of
`load_exchange_data` collapses colliding numeric values to their arithmetic
mean (10 and 20 on one date become a single 15) and leaves exactly one row
per distinct date; but the duplicate removal in
`combine_volatility_currency` instead keeps the first occurrence of each
date, also one row per date, with the first colliding value, not the mean. -/
theorem duplicate_resolution_modes :
    dedupMean [((5 : Int), some (10 : ℚ)), (5, some 20)] = [(5, some 15)]
      ∧ (∀ rows : List Row,
          ((dedupMean rows).map Prod.fst).Nodup
            ∧ ∀ d : Int, d ∈ rows.map Prod.fst → (d, groupMeanAt rows d) ∈ dedupMean rows)
      ∧ (∀ rows : List Row, ((dedupFirst rows).map Prod.fst).Nodup)
      ∧ ∀ (d : Int) (v w : Option ℚ) (rs : List Row),
          (d, w) ∈ dedupFirst ((d, v) :: rs) → w = v := by
  refine ⟨?_, ?_, fun rows => dedupFirstGo_nodup rows [], dedupFirst_head_wins⟩
  · show dedupMean [((5 : Int), some (10 : ℚ)), (5, some 20)] = [(5, some 15)]
    rw [dedupMean, datesOf]
    norm_num [dedupSort, insertSorted, groupMeanAt, observedAt, List.filterMap_cons]
    intro h
    exact absurd h (by decide)
  intro rows
  constructor
  · have hmap : (dedupMean rows).map Prod.fst = datesOf rows := by
      rw [dedupMean, List.map_map]
      have hcomp : (Prod.fst ∘ fun d : Int => (d, groupMeanAt rows d)) = id := rfl
      rw [hcomp, List.map_id]
    rw [hmap]
    exact (sorted_dedupSort _).nodup
  · intro d hd
    rw [dedupMean]
    refine List.mem_map.mpr ⟨d, ?_, rfl⟩
    rw [datesOf, mem_dedupSort]
    exact hd

/-- C2 witness: instantiating the amended theorem on the concrete duplicate
series [(5, 10), (5, 20)] places the mean observation in the collapsed
series. -/
theorem duplicate_resolution_modes_witness :
    ((5 : Int), groupMeanAt [((5 : Int), some (10 : ℚ)), (5, some 20)] 5)
      ∈ dedupMean [((5 : Int), some (10 : ℚ)), (5, some 20)] :=
  (duplicate_resolution_modes.2.1 _).2 5 (by decide)

/-! ## Gap filling

`create_combined_dataset.main` (lines 200-202) runs `ffill` then `bfill`
over the joined table.  `fix_missing_values`
(check_and_fix_missing_values.py lines 140-143) runs
`interpolate(method='linear')` on each numeric column and then
`ffill().fillna(bfill())`.  pandas' `method='linear'` treats the values as
equally spaced: the interpolation coordinate is the ROW POSITION, the Date
index is ignored. -/

/-- `ffill` with the last seen value carried along. -/
def ffillGo (last : Option ℚ) : List (Option ℚ) → List (Option ℚ)
  | [] => []
  | none :: xs => last :: ffillGo last xs
  | some v :: xs => some v :: ffillGo (some v) xs

/-- pandas `Series.ffill()`: each NaN takes the nearest preceding non-NaN
value, leading NaNs stay NaN. -/
def ffill (xs : List (Option ℚ)) : List (Option ℚ) := ffillGo none xs

/-- The next non-NaN value at or after the head. -/
def nextObs : List (Option ℚ) → Option ℚ
  | [] => none
  | some v :: _ => some v
  | none :: xs => nextObs xs

/-- pandas `Series.bfill()`: each NaN takes the nearest following non-NaN
value, trailing NaNs stay NaN. -/
def bfill : List (Option ℚ) → List (Option ℚ)
  | [] => []
  | some v :: xs => some v :: bfill xs
  | none :: xs => nextObs xs :: bfill xs

/-- pandas `a.fillna(b)`: cells missing in `a` are taken from `b`. -/
def fillna : List (Option ℚ) → List (Option ℚ) → List (Option ℚ)
  | [], _ => []
  | x :: xs, [] => x :: fillna xs []
  | some v :: xs, _ :: ys => some v :: fillna xs ys
  | none :: xs, y :: ys => y :: fillna xs ys

/-- The (position, value) pairs of the non-NaN cells of a column, positions
counted from `i`. -/
def obsPairsGo (i : ℕ) : List (Option ℚ) → List (ℕ × ℚ)
  | [] => []
  | none :: xs => obsPairsGo (i + 1) xs
  | some v :: xs => (i, v) :: obsPairsGo (i + 1) xs

/-- The (position, value) pairs of the non-NaN cells of a column. -/
def obsPairs (xs : List (Option ℚ)) : List (ℕ × ℚ) := obsPairsGo 0 xs

/-- What `interpolate(method='linear')` writes into a NaN cell at position
`k`: linear interpolation between the nearest preceding and following
non-NaN positions, with the POSITION as coordinate; after the last non-NaN
position the last value is carried forward (default limit_direction); NaNs
before the first non-NaN position are left alone. -/
def interpGap (xs : List (Option ℚ)) (k : ℕ) : Option ℚ :=
  match ((obsPairs xs).filter (fun p => decide (p.1 < k))).getLast?,
      ((obsPairs xs).filter (fun p => decide (k < p.1))).head? with
  | some iv, some jv =>
      some (iv.2 + (jv.2 - iv.2) * (((k : ℚ) - (iv.1 : ℚ)) / ((jv.1 : ℚ) - (iv.1 : ℚ))))
  | some iv, none => some iv.2
  | none, _ => none

/-- One cell of `interpolate(method='linear')`: non-NaN cells are kept. -/
def interpCell (xs : List (Option ℚ)) (k : ℕ) : Option ℚ :=
  match xs.get? k with
  | some (some v) => some v
  | _ => interpGap xs k

/-- pandas `Series.interpolate(method='linear')` over a whole column. -/
def interpPos (xs : List (Option ℚ)) : List (Option ℚ) :=
  (List.range xs.length).map (interpCell xs)

/-- The fill pass of `create_combined_dataset.main` (lines 201-202):
forward fill, then backward fill. -/
def fillCombined (xs : List (Option ℚ)) : List (Option ℚ) := bfill (ffill xs)

/-- The numeric-column fix of `fix_missing_values` (lines 140-143):
interpolate, then `ffill().fillna(bfill())` of the interpolated column. -/
def fixNumericCol (xs : List (Option ℚ)) : List (Option ℚ) :=
  fillna (ffill (interpPos xs)) (bfill (interpPos xs))

/-! ### Observed cells survive every fill -/

theorem ffillGo_observed (xs : List (Option ℚ)) :
    ∀ (last : Option ℚ) (i : ℕ) (v : ℚ),
      xs.get? i = some (some v) → (ffillGo last xs).get? i = some (some v) := by
  induction xs with
  | nil => intro last i v h; simp at h
  | cons x rest ih =>
    intro last i v h
    cases x with
    | none =>
      cases i with
      | zero => simp at h
      | succ n =>
        simp only [List.get?_cons_succ] at h
        simpa only [ffillGo, List.get?_cons_succ] using ih last n v h
    | some q =>
      cases i with
      | zero =>
        simp only [List.get?_cons_zero] at h
        simpa only [ffillGo, List.get?_cons_zero] using h
      | succ n =>
        simp only [List.get?_cons_succ] at h
        simpa only [ffillGo, List.get?_cons_succ] using ih (some q) n v h

theorem bfill_observed (xs : List (Option ℚ)) :
    ∀ (i : ℕ) (v : ℚ), xs.get? i = some (some v) → (bfill xs).get? i = some (some v) := by
  induction xs with
  | nil => intro i v h; simp at h
  | cons x rest ih =>
    intro i v h
    cases x with
    | none =>
      cases i with
      | zero => simp at h
      | succ n =>
        simp only [List.get?_cons_succ] at h
        simpa only [bfill, List.get?_cons_succ] using ih n v h
    | some q =>
      cases i with
      | zero =>
        simp only [List.get?_cons_zero] at h
        simpa only [bfill, List.get?_cons_zero] using h
      | succ n =>
        simp only [List.get?_cons_succ] at h
        simpa only [bfill, List.get?_cons_succ] using ih n v h

theorem fillna_observed (xs : List (Option ℚ)) :
    ∀ (ys : List (Option ℚ)) (i : ℕ) (v : ℚ),
      xs.get? i = some (some v) → (fillna xs ys).get? i = some (some v) := by
  induction xs with
  | nil => intro ys i v h; simp at h
  | cons x rest ih =>
    intro ys i v h
    cases x with
    | none =>
      cases i with
      | zero => simp at h
      | succ n =>
        simp only [List.get?_cons_succ] at h
        cases ys with
        | nil => simpa only [fillna, List.get?_cons_succ] using ih [] n v h
        | cons y ys2 => simpa only [fillna, List.get?_cons_succ] using ih ys2 n v h
    | some q =>
      cases i with
      | zero =>
        simp only [List.get?_cons_zero] at h
        cases ys with
        | nil => simpa only [fillna, List.get?_cons_zero] using h
        | cons y ys2 => simpa only [fillna, List.get?_cons_zero] using h
      | succ n =>
        simp only [List.get?_cons_succ] at h
        cases ys with
        | nil => simpa only [fillna, List.get?_cons_succ] using ih [] n v h
        | cons y ys2 => simpa only [fillna, List.get?_cons_succ] using ih ys2 n v h

theorem interpPos_observed (xs : List (Option ℚ)) (k : ℕ) (v : ℚ)
    (h : xs.get? k = some (some v)) : (interpPos xs).get? k = some (some v) := by
  have hk : k < xs.length := by
    by_contra hk
    rw [List.get?_eq_none.mpr (le_of_not_lt hk)] at h
    exact Option.noConfusion h
  rw [interpPos, List.get?_map, List.get?_range hk]
  rw [List.get?_eq_getElem?] at h
  simp [interpCell, h]

/-! ### Positional vs date-coordinate interpolation -/

/-- The observed (date, value) pairs of a date-keyed series. -/
def obsRows (rows : List Row) : List (Int × ℚ) :=
  rows.filterMap (fun r => r.2.map (fun v => (r.1, v)))

/-- Modelled from the spec: the date-coordinate linear interpolation the
spec prescribes for interior gaps — between the nearest preceding and
following observed DATES, with the dates themselves as coordinate.  The
source instead calls `interpolate(method='linear')`, which is positional;
this definition exists to exhibit the divergence. -/
def dateInterpCell (rows : List Row) (k : ℕ) : Option ℚ :=
  match rows.get? k with
  | some (_, some v) => some v
  | some (d, none) =>
    match ((obsRows rows).filter (fun p => decide (p.1 < d))).getLast?,
        ((obsRows rows).filter (fun p => decide (d < p.1))).head? with
    | some iv, some jv =>
        some (iv.2 + (jv.2 - iv.2) * (((d : ℚ) - (iv.1 : ℚ)) / ((jv.1 : ℚ) - (iv.1 : ℚ))))
    | _, _ => none
  | none => none

/-- Date-coordinate interpolation over a whole series (spec-side model). -/
def dateInterpSeries (rows : List Row) : List (Option ℚ) :=
  (List.range rows.length).map (dateInterpCell rows)

/-- C5: on a Date-indexed series with rows at days 1, 2, 5 and values
0, NaN, 40, the `interpolate(method='linear')` call of
`fix_missing_values` ignores the date index and fills the day-2 cell with
the positional midpoint 20, while the date-coordinate interpolation the
claim (and the code's own comment) prescribes yields 10.  On the claim's
own evenly-rowed example (days 1-5 all present) the two coincide at
10, 20, 30. -/
theorem interp_positional_ignores_dates :
    interpPos [some 0, none, some 40] = [some 0, some 20, some 40]
      ∧ dateInterpSeries [((1 : Int), some (0 : ℚ)), (2, none), (5, some 40)]
          = [some 0, some 10, some 40]
      ∧ interpPos [some 0, none, none, none, some 40]
          = [some 0, some 10, some 20, some 30, some 40] := by
  refine ⟨?_, ?_, ?_⟩ <;>
    norm_num [interpPos, interpCell, interpGap, obsPairs, obsPairsGo,
      dateInterpSeries, dateInterpCell, obsRows,
      List.range_succ, List.filter_cons, List.filterMap_cons]

/-! ## The CloseUSD branch of fix_missing_values

When the column being fixed is CloseUSD and both Close and Currency
columns exist (check_and_fix_missing_values.py lines 119-133), the whole
column is handed to `apply_currency_conversion`
(fix_closeusd_values.py lines 52-207, called with no currency map), which
recomputes CloseUSD for EVERY row of each currency from Close — a direct
copy for USD, Close times a hardcoded rate for known currencies, Close
times a magnitude-guessed rate otherwise — and only afterwards
interpolates/fills cells that are still NaN.  The final Date-index sort
only reorders rows. -/

/-- One row of a per-exchange file as the CloseUSD branch sees it: the
Date index value, the Close and CloseUSD cells, and the Currency label. -/
structure CRow where
  date : Int
  close : Option ℚ
  closeUSD : Option ℚ
  currency : String

/-- The hardcoded `conversion_rates` table (fix_closeusd_values.py
lines 106-134); `none` for an unknown currency. -/
def conversionRate (c : String) : Option ℚ :=
  if c = "EUR" then some 1.08
  else if c = "GBP" then some 1.26
  else if c = "JPY" then some 0.0067
  else if c = "CNY" then some 0.14
  else if c = "INR" then some 0.012
  else if c = "CAD" then some 0.74
  else if c = "CHF" then some 1.13
  else if c = "KRW" then some 0.00075
  else if c = "TWD" then some 0.032
  else if c = "AUD" then some 0.67
  else if c = "HKD" then some 0.128
  else if c = "SGD" then some 0.74
  else if c = "NZD" then some 0.61
  else if c = "MXN" then some 0.059
  else if c = "BRL" then some 0.18
  else if c = "ZAR" then some 0.055
  else if c = "RUB" then some 0.011
  else if c = "TRY" then some 0.031
  else if c = "SEK" then some 0.096
  else if c = "NOK" then some 0.095
  else if c = "DKK" then some 0.145
  else if c = "PLN" then some 0.25
  else if c = "ILS" then some 0.27
  else if c = "THB" then some 0.028
  else if c = "IDR" then some 0.000064
  else if c = "MYR" then some 0.21
  else if c = "PHP" then some 0.018
  else none

/-- The magnitude heuristic for an unknown currency (lines 152-163). -/
def estimatedRate (avgClose : ℚ) : ℚ :=
  if 10000 < avgClose then 0.001
  else if 1000 < avgClose then 0.01
  else if 100 < avgClose then 0.1
  else if 10 < avgClose then 0.5
  else if 1 < avgClose then 1
  else 10

/-- Keep-first deduplication against a list of already-seen keys. -/
def dedupKeepFirst {α : Type} [DecidableEq α] (seen : List α) : List α → List α
  | [] => []
  | x :: xs => if x ∈ seen then dedupKeepFirst seen xs else x :: dedupKeepFirst (x :: seen) xs

/-- `data['Currency'].unique()`: distinct currencies in first-appearance
order. -/
def uniqueCurrencies (rows : List CRow) : List String :=
  dedupKeepFirst [] (rows.map (fun r => r.currency))

/-- One pass of the `for currency in currencies` loop (lines 95-167): every
row of that currency gets `CloseUSD = Close` (USD), or
`CloseUSD = Close * rate` — regardless of what CloseUSD held before.  A
NaN comparison in the magnitude heuristic is always False, so an all-NaN
mean falls through to the final estimate 10. -/
def applyOneCurrency (c : String) (rows : List CRow) : List CRow :=
  if c = "USD" then
    rows.map (fun r => if r.currency = c then { r with closeUSD := r.close } else r)
  else
    match conversionRate c with
    | some rate =>
        rows.map (fun r =>
          if r.currency = c then { r with closeUSD := r.close.map (fun v => v * rate) } else r)
    | none =>
        let closes := rows.filterMap (fun r => if r.currency = c then r.close else none)
        let rate := if closes = [] then (10 : ℚ) else estimatedRate (closes.sum / closes.length)
        rows.map (fun r =>
          if r.currency = c then { r with closeUSD := r.close.map (fun v => v * rate) } else r)

/-- The conversion loop over all currencies present in the file. -/
def applyCurrencyConversion (rows : List CRow) : List CRow :=
  (uniqueCurrencies rows).foldl (fun rs c => applyOneCurrency c rs) rows

/-- The post-conversion NaN patch-up of the CloseUSD column
(lines 169-186): interpolate, then ffill/bfill, then fall back to Close
where still NaN.  These steps only write cells that are NaN. -/
def patchCloseUSD (rows : List CRow) : List CRow :=
  let col := bfill (ffill (interpPos (rows.map (fun r => r.closeUSD))))
  (rows.zip col).map (fun p =>
    { p.1 with closeUSD := match p.2 with | some v => some v | none => p.1.close })

/-- The trailing fill of the other numeric column, Close (lines 188-198). -/
def patchOtherCols (rows : List CRow) : List CRow :=
  let col := bfill (ffill (interpPos (rows.map (fun r => r.close))))
  (rows.zip col).map (fun p => { p.1 with close := p.2 })

/-- The whole CloseUSD branch of `fix_missing_values`. -/
def fixCloseUSDBranch (rows : List CRow) : List CRow :=
  patchOtherCols (patchCloseUSD (applyCurrencyConversion rows))

/-- The branch-entry condition: the CloseUSD column contains a NaN
(lines 117-119). -/
def closeUSDHasNaN (rows : List CRow) : Bool :=
  rows.any (fun r => r.closeUSD.isNone)

theorem dedupKeepFirst_replicate_seen {α : Type} [DecidableEq α] (c : α) (n : ℕ) :
    ∀ seen : List α, c ∈ seen → dedupKeepFirst seen (List.replicate n c) = [] := by
  induction n with
  | zero => intro seen _; simp [List.replicate, dedupKeepFirst]
  | succ m ih =>
    intro seen hc
    rw [List.replicate_succ, dedupKeepFirst, if_pos hc]
    exact ih seen hc

theorem uniqueCurrencies_allsame (c : String) (r0 : CRow) (rs : List CRow)
    (h : ∀ r ∈ r0 :: rs, r.currency = c) : uniqueCurrencies (r0 :: rs) = [c] := by
  have hmap : (r0 :: rs).map (fun r => r.currency)
      = List.replicate ((r0 :: rs).length) c := by
    rw [List.eq_replicate]
    constructor
    · rw [List.length_map]
    · intro b hb
      rcases List.mem_map.mp hb with ⟨r, hr, rfl⟩
      exact h r hr
  rw [uniqueCurrencies, hmap, List.length_cons, List.replicate_succ, dedupKeepFirst]
  rw [if_neg (List.not_mem_nil c)]
  rw [dedupKeepFirst_replicate_seen c _ _ (List.mem_cons_self c [])]

/-- C4 counterexample: a EUR file with Close 100 and an OBSERVED CloseUSD
of 95 on day 1 (and a NaN CloseUSD on day 2, which triggers the branch).
The CloseUSD branch of `fix_missing_values` rewrites the observed cell to
Close * 1.08 = 108: the gap-filling step overwrites an observed cell, so
the final value is not the duplicate-resolved source value 95. -/
theorem closeusd_observed_overwritten :
    closeUSDHasNaN [⟨1, some 100, some 95, "EUR"⟩, ⟨2, some 200, none, "EUR"⟩] = true
      ∧ (fixCloseUSDBranch [⟨1, some 100, some 95, "EUR"⟩, ⟨2, some 200, none, "EUR"⟩]).map
          (fun r => r.closeUSD) = [some 108, some 216]
      ∧ (fixCloseUSDBranch [⟨1, some 100, some 95, "EUR"⟩, ⟨2, some 200, none, "EUR"⟩]).map
          (fun r => r.closeUSD) ≠ [some 95, some 216] := by
  have hu : uniqueCurrencies [(⟨1, some 100, some 95, "EUR"⟩ : CRow), ⟨2, some 200, none, "EUR"⟩]
      = ["EUR"] := by decide
  have hmain : (fixCloseUSDBranch [⟨1, some 100, some 95, "EUR"⟩, ⟨2, some 200, none, "EUR"⟩]).map
      (fun r => r.closeUSD) = [some 108, some 216] := by
    have hne : ¬ ("EUR" : String) = "USD" := by decide
    rw [fixCloseUSDBranch, applyCurrencyConversion, hu]
    norm_num [applyOneCurrency, conversionRate, patchCloseUSD, patchOtherCols,
      interpPos, interpCell, interpGap, obsPairs, obsPairsGo, ffill, ffillGo, bfill, nextObs,
      List.range_succ, hne]
  refine ⟨by decide, hmain, ?_⟩
  rw [hmain]
  intro h
  rw [List.cons.injEq] at h
  have h108 := Option.some.injEq (108 : ℚ) 95 ▸ h.1
  norm_num at h108

/-- C4 (amended): the pure fill operations — the ffill-then-bfill of
`create_combined_dataset` and the interpolate-then-ffill-then-bfill of the
numeric branch of `fix_missing_values` — leave every observed cell
unchanged and write only missing cells; but the CloseUSD branch of
`fix_missing_values` does NOT: `apply_currency_conversion` recomputes
every CloseUSD cell of a currency from the Close column (Close times the
currency's rate), regardless of whether the cell was observed. -/
theorem fills_only_write_missing_cells :
    (∀ (xs : List (Option ℚ)) (i : ℕ) (v : ℚ), xs.get? i = some (some v) →
        (fillCombined xs).get? i = some (some v) ∧ (fixNumericCol xs).get? i = some (some v))
      ∧ ∀ (rows : List CRow) (c : String) (rate : ℚ),
          (∀ r ∈ rows, r.currency = c) → c ≠ "USD" → conversionRate c = some rate →
          (applyCurrencyConversion rows).map (fun r => r.closeUSD)
            = rows.map (fun r => r.close.map (fun v => v * rate)) := by
  constructor
  · intro xs i v h
    constructor
    · exact bfill_observed _ i v (ffillGo_observed xs none i v h)
    · exact fillna_observed _ _ i v (ffillGo_observed _ none i v (interpPos_observed xs i v h))
  · intro rows c rate hall husd hrate
    cases rows with
    | nil => rw [applyCurrencyConversion]; rfl
    | cons r0 rs =>
      rw [applyCurrencyConversion, uniqueCurrencies_allsame c r0 rs hall]
      rw [List.foldl_cons, List.foldl_nil]
      rw [applyOneCurrency, if_neg husd, hrate]
      rw [List.map_map]
      apply List.map_congr_left
      intro r hr
      simp only [Function.comp_apply, if_pos (hall r hr)]

/-- C4 witness: the preservation half applied to the observed middle cell
of [NaN, 3, NaN], and the overwrite half applied to the one-row EUR file —
every CloseUSD cell, including the observed 95, becomes Close * 1.08. -/
theorem fills_only_write_missing_cells_witness :
    ((fillCombined [none, some 3, none]).get? 1 = some (some 3)
        ∧ (fixNumericCol [none, some 3, none]).get? 1 = some (some 3))
      ∧ (applyCurrencyConversion [⟨1, some 100, some 95, "EUR"⟩]).map (fun r => r.closeUSD)
          = [(⟨1, some 100, some 95, "EUR"⟩ : CRow)].map (fun r => r.close.map (fun v => v * 1.08)) :=
  ⟨fills_only_write_missing_cells.1 [none, some 3, none] 1 3 (by decide),
   fills_only_write_missing_cells.2 [⟨1, some 100, some 95, "EUR"⟩] "EUR" 1.08
     (by intro r hr; rcases List.mem_singleton.mp hr with rfl; rfl)
     (by decide) rfl⟩

/-! ## Column assembly in average_exchanges

`all_columns` is a Python set of column names; `result_df` gains one
column per member, in the set's iteration order.  A column keeps its place
in the output whatever its values are: no column is dropped for being
all-NaN. -/

/-- One dataframe row: its date and its (column, cell) pairs. -/
abbrev XRow := Int × List (String × Option ℚ)

/-- One loaded exchange dataframe. -/
abbrev Exchange := List XRow

/-- The numeric column names of one dataframe. -/
def exCols (ex : Exchange) : List String :=
  dedupKeepFirst [] (ex.flatMap (fun r => r.2.map Prod.fst))

/-- `row[col]`: the cell of a row at a column; a column absent from the
dataframe reads as NaN (the `common_cols` guard skips it). -/
def cellOf (r : XRow) (c : String) : Option ℚ :=
  match List.lookup c r.2 with
  | some v => v
  | none => none

/-- The single-column (date, cell) view of one exchange consumed by the
averaging loop. -/
def colView (ex : Exchange) (c : String) : List Row :=
  ex.map (fun r => (r.1, cellOf r c))

/-- The members of the Python set `all_columns` (presence only; the
iteration order is a separate parameter). -/
def allColumnsList (exs : List Exchange) : List String :=
  dedupKeepFirst [] (exs.flatMap exCols)

/-- The date axis of the result: ascending union of all row dates. -/
def axisOf (exs : List Exchange) : List Int :=
  dedupSort (exs.flatMap (fun ex => ex.map Prod.fst))

/-- One result column of cross-source averaged cells along the axis. -/
def colValues (exs : List Exchange) (c : String) : List (Option ℚ) :=
  (axisOf exs).map (fun d => mergedCell (exs.map (fun ex => colView ex c)) d)

/-- The table `average_exchanges` writes, given the order `order` in which
Python iterates the column set: the header row, the date axis, and the
named value columns in that order. -/
def writtenTable (exs : List Exchange) (order : List String) :
    List String × List Int × List (String × List (Option ℚ)) :=
  ("Date" :: order, axisOf exs, order.map (fun c => (c, colValues exs c)))

theorem mem_dedupKeepFirst {α : Type} [DecidableEq α] (l : List α) :
    ∀ (seen : List α) (a : α), a ∈ dedupKeepFirst seen l ↔ a ∈ l ∧ a ∉ seen := by
  induction l with
  | nil => intro seen a; simp [dedupKeepFirst]
  | cons x xs ih =>
    intro seen a
    rw [dedupKeepFirst]
    by_cases hx : x ∈ seen
    · rw [if_pos hx, ih]
      constructor
      · rintro ⟨h1, h2⟩; exact ⟨List.mem_cons_of_mem _ h1, h2⟩
      · rintro ⟨h1, h2⟩
        rcases List.mem_cons.mp h1 with rfl | h1
        · exact absurd hx h2
        · exact ⟨h1, h2⟩
    · rw [if_neg hx]
      constructor
      · intro h
        rcases List.mem_cons.mp h with rfl | h
        · exact ⟨List.mem_cons_self _ _, hx⟩
        · obtain ⟨h1, h2⟩ := (ih _ _).mp h
          exact ⟨List.mem_cons_of_mem _ h1, fun hc => h2 (List.mem_cons_of_mem _ hc)⟩
      · rintro ⟨h1, h2⟩
        rcases List.mem_cons.mp h1 with rfl | h1
        · exact List.mem_cons_self _ _
        · by_cases hax : a = x
          · subst hax; exact List.mem_cons_self _ _
          · refine List.mem_cons_of_mem _ ((ih _ _).mpr ⟨h1, ?_⟩)
            intro hc
            exact (List.mem_cons.mp hc).elim hax h2

/-- C6 counterexample: an exchange whose "Close" column is NaN on every
row.  `average_exchanges` keeps "Close" as an output column — all cells
missing — rather than excluding it from the written table, and emits the
other column normally. -/
theorem allmissing_column_not_excluded :
    allColumnsList [[((1 : Int), [("Close", (none : Option ℚ)), ("Open", some 3)]),
        (2, [("Close", none), ("Open", some 4)])]] = ["Close", "Open"]
      ∧ "Close" ∈ (writtenTable [[((1 : Int), [("Close", (none : Option ℚ)), ("Open", some 3)]),
          (2, [("Close", none), ("Open", some 4)])]]
          ["Close", "Open"]).1
      ∧ colValues [[((1 : Int), [("Close", (none : Option ℚ)), ("Open", some 3)]),
          (2, [("Close", none), ("Open", some 4)])]] "Close" = [none, none]
      ∧ colValues [[((1 : Int), [("Close", (none : Option ℚ)), ("Open", some 3)]),
          (2, [("Close", none), ("Open", some 4)])]] "Open" = [some 3, some 4] := by
  have hcc : ("Close" == "Close") = true := by decide
  have hoc : ("Open" == "Close") = false := by decide
  have hco : ("Close" == "Open") = false := by decide
  have hoo : ("Open" == "Open") = true := by decide
  refine ⟨by decide, by decide, ?_, ?_⟩ <;>
    · rw [colValues]
      norm_num [axisOf, dedupSort, insertSorted, mergedCell, totals_eq, observedVals,
        observedAt, colView, cellOf, List.lookup, List.filterMap_cons, hcc, hoc, hco, hoo]

/-- C6 (amended): a column's presence in the written table depends only on
its presence in some input dataframe, never on its values — a metric with
zero observed values anywhere is RETAINED as an all-missing column, not
excluded, while the run completes and all other columns are emitted
unchanged. -/
theorem column_presence_ignores_values :
    ∀ (exs : List Exchange) (c : String),
      c ∈ (writtenTable exs (allColumnsList exs)).1
        ↔ c = "Date" ∨ ∃ ex ∈ exs, c ∈ exCols ex := by
  intro exs c
  show c ∈ "Date" :: allColumnsList exs ↔ _
  rw [List.mem_cons, allColumnsList, mem_dedupKeepFirst]
  simp [List.mem_flatMap]

/-! ## Determinism and iteration order (C8) -/

/-- C8 counterexample: the same input with two legitimate iteration orders
of the same column set produces different written tables — the header (and
column order) differs, so rerunning on byte-identical inputs need not give
byte-identical output. -/
theorem output_depends_on_iteration_order :
    ["Open", "Close"].Perm ["Close", "Open"]
      ∧ writtenTable [[((1 : Int), [("Open", some (2 : ℚ)), ("Close", some 3)])]] ["Open", "Close"]
          ≠ writtenTable [[((1 : Int), [("Open", some (2 : ℚ)), ("Close", some 3)])]] ["Close", "Open"] := by
  refine ⟨by decide, ?_⟩
  intro h
  have h1 := congrArg Prod.fst h
  simp [writtenTable] at h1

/-- C8 (amended): the date axis and the content of each named column are
deterministic — independent of the set-iteration order — but the header
and the column layout equal the iteration order itself, so two runs agree
only up to a permutation of columns, not byte-for-byte. -/
theorem table_content_independent_of_order :
    (∀ (exs : List Exchange) (order : List String) (c : String),
        List.lookup c (writtenTable exs order).2.2
          = if c ∈ order then some (colValues exs c) else none)
      ∧ ∀ (exs : List Exchange) (order : List String),
          (writtenTable exs order).1 = "Date" :: order
            ∧ (writtenTable exs order).2.1 = axisOf exs := by
  constructor
  · intro exs order c
    induction order with
    | nil => simp [writtenTable]
    | cons a rest ih =>
      show List.lookup c ((a :: rest).map fun c => (c, colValues exs c)) = _
      rw [List.map_cons]
      by_cases hca : c = a
      · subst hca; simp [List.lookup]
      · have hb : (c == a) = false := beq_false_of_ne hca
        simp only [List.lookup, hb, List.mem_cons]
        rw [show List.lookup c (rest.map fun c => (c, colValues exs c))
              = List.lookup c (writtenTable exs rest).2.2 from rfl, ih]
        simp [hca]
  · intro exs order
    exact ⟨rfl, rfl⟩

/-! ## Persisting the "latest" table (C7)

`create_combined_dataset.main` (lines 234-282) writes the timestamped
snapshot, writes the new table to a temp path, copies the old latest to a
backup if it can, and then up to 5 times: REMOVES the existing latest file
and tries to rename the temp file onto it.  Whether each remove / rename /
backup succeeds is environment-determined and modelled by boolean
schedules. -/

/-- The files the save procedure touches. -/
structure FS where
  latest : Option String
  temp : Option String
  backup : Option String
  snapshot : Option String
deriving DecidableEq

/-- The retry loop (lines 261-282): each attempt first removes the
destination if it exists (and the environment lets it), then attempts the
rename; on rename success the temp file becomes the latest. -/
def runAttempts (removeOk renameOk : ℕ → Bool) : ℕ → ℕ → FS → FS × Bool
  | 0, _, fs => (fs, false)
  | fuel + 1, i, fs =>
    let fs1 := if fs.latest.isSome && removeOk i then { fs with latest := none } else fs
    if renameOk i then
      ({ fs1 with latest := fs1.temp, temp := none }, true)
    else
      runAttempts removeOk renameOk fuel (i + 1) fs1

/-- The whole save path: snapshot write (line 235), temp write (line 245),
backup copy when the latest exists (lines 248-254), then at most 5
remove-and-rename attempts. -/
def saveCombined (newContent : String) (backupOk : Bool) (removeOk renameOk : ℕ → Bool)
    (prior : FS) : FS × Bool :=
  let fs0 := { prior with snapshot := some newContent }
  let fs1 := { fs0 with temp := some newContent }
  let fs2 := if fs1.latest.isSome && backupOk then { fs1 with backup := fs1.latest } else fs1
  runAttempts removeOk renameOk 5 0 fs2

/-- C7 counterexample: the prior latest "old" exists, the remove succeeds
on the first attempt, every rename fails, and the backup copy also failed:
after the bounded retries the latest file is GONE — its prior content is
not preserved.  Only the timestamped snapshot (with the NEW content)
remains. -/
theorem latest_lost_when_rename_fails :
    (saveCombined "new" false (fun _ => true) (fun _ => false)
        ⟨some "old", none, none, none⟩).1.latest = none
      ∧ (saveCombined "new" false (fun _ => true) (fun _ => false)
          ⟨some "old", none, none, none⟩).1.latest ≠ some "old"
      ∧ (saveCombined "new" false (fun _ => true) (fun _ => false)
          ⟨some "old", none, none, none⟩).2 = false := by
  refine ⟨by decide, by decide, by decide⟩

/-- C7 (amended): the assembler does write the new table to a temp path
first, retries the replace a bounded number of times (the loop consumes at
most 5 attempts), and on total failure the timestamped snapshot — written
beforehand with the new content — survives as the fallback artifact; but
the replace is NOT atomic: it deletes the destination before renaming, so
when the swap never succeeds the prior "latest" content is preserved only
if every remove also failed. -/
theorem save_bounded_and_snapshot_preserved
    (newContent : String) (backupOk : Bool) (removeOk renameOk : ℕ → Bool) (prior : FS) :
    ((saveCombined newContent backupOk removeOk renameOk prior).1.snapshot = some newContent)
      ∧ ((saveCombined newContent backupOk removeOk renameOk prior).2 = true →
          (saveCombined newContent backupOk removeOk renameOk prior).1.latest = some newContent)
      ∧ ((∀ i, removeOk i = false) →
          (saveCombined newContent backupOk removeOk renameOk prior).2 = false →
          (saveCombined newContent backupOk removeOk renameOk prior).1.latest = prior.latest) := by
  have key : ∀ (fuel i : ℕ) (fs : FS),
      ((runAttempts removeOk renameOk fuel i fs).1.snapshot = fs.snapshot)
        ∧ ((runAttempts removeOk renameOk fuel i fs).2 = true →
            (runAttempts removeOk renameOk fuel i fs).1.latest = fs.temp)
        ∧ ((∀ j, removeOk j = false) →
            (runAttempts removeOk renameOk fuel i fs).2 = false →
            (runAttempts removeOk renameOk fuel i fs).1.latest = fs.latest) := by
    intro fuel
    induction fuel with
    | zero =>
      intro i fs
      refine ⟨rfl, ?_, fun _ _ => rfl⟩
      intro h
      simp [runAttempts] at h
    | succ n ih =>
      intro i fs
      by_cases hrn : renameOk i = true
      · by_cases hrm : (fs.latest.isSome && removeOk i) = true
        · refine ⟨?_, ?_, ?_⟩
          · simp [runAttempts, hrn, hrm]
          · intro _; simp [runAttempts, hrn, hrm]
          · intro hall
            have hri := hall i
            simp [hri] at hrm
        · refine ⟨?_, ?_, ?_⟩ <;> simp [runAttempts, hrn, hrm]
      · have hrn2 : renameOk i = false := by
          cases h : renameOk i
          · rfl
          · exact absurd h hrn
        by_cases hrm : (fs.latest.isSome && removeOk i) = true
        · have step : runAttempts removeOk renameOk (n + 1) i fs
              = runAttempts removeOk renameOk n (i + 1) { fs with latest := none } := by
            simp [runAttempts, hrn2, hrm]
          rw [step]
          obtain ⟨k1, k2, k3⟩ := ih (i + 1) { fs with latest := none }
          refine ⟨k1, k2, ?_⟩
          intro hall
          have := hall i
          simp [this] at hrm
        · have step : runAttempts removeOk renameOk (n + 1) i fs
              = runAttempts removeOk renameOk n (i + 1) fs := by
            simp [runAttempts, hrn2, hrm]
          rw [step]
          exact ih (i + 1) fs
  unfold saveCombined
  by_cases hb : (prior.latest.isSome && backupOk) = true
  · simp only [hb, if_pos]
    obtain ⟨k1, k2, k3⟩ := key 5 0
      { latest := prior.latest, temp := some newContent,
        backup := prior.latest, snapshot := some newContent }
    exact ⟨k1, k2, k3⟩
  · simp only [hb, if_neg, Bool.not_eq_true]
    obtain ⟨k1, k2, k3⟩ := key 5 0
      { latest := prior.latest, temp := some newContent,
        backup := prior.backup, snapshot := some newContent }
    exact ⟨k1, k2, k3⟩

/-- C7 witness: with every remove failing and every rename failing, the
amended theorem applied to prior latest "old" yields: the snapshot holds
the new content and the latest still holds "old". -/
theorem save_bounded_and_snapshot_preserved_witness :
    ((saveCombined "new" true (fun _ => false) (fun _ => false)
        ⟨some "old", none, none, none⟩).1.snapshot = some "new")
      ∧ ((saveCombined "new" true (fun _ => false) (fun _ => false)
          ⟨some "old", none, none, none⟩).1.latest = some "old") := by
  obtain ⟨k1, _, k3⟩ := save_bounded_and_snapshot_preserved "new" true
    (fun _ => false) (fun _ => false) ⟨some "old", none, none, none⟩
  exact ⟨k1, k3 (fun _ => rfl) (by decide)⟩

/-! ## Column naming and the Currency drop (C9, C10)

`create_combined_dataset.main` names exchange columns "AVG <metric>"
(lines 67-82) and feature columns "<feature_type> <col>" (lines 148-163),
where `feature_type` is the filename up to the first underscore; columns
BTC/USD and Gold/BTC Ratio of a `currency_metrics.csv` file keep their
bare names.  Just before saving (lines 220-225) every column whose name
contains the case-sensitive substring "Currency" is dropped. -/

/-- Python `hay.startswith(needle)` over character lists. -/
def leadsWith : List Char → List Char → Bool
  | [], _ => true
  | _ :: _, [] => false
  | a :: as, b :: bs => a == b && leadsWith as bs

/-- Python `needle in hay` (substring test) over character lists. -/
def hasSub (needle : List Char) : List Char → Bool
  | [] => leadsWith needle []
  | b :: bs => leadsWith needle (b :: bs) || hasSub needle bs

theorem leadsWith_iff (n : List Char) :
    ∀ h : List Char, leadsWith n h = true ↔ ∃ rest, h = n ++ rest := by
  induction n with
  | nil =>
    intro h
    rw [leadsWith]
    simp
  | cons a as ih =>
    intro h
    cases h with
    | nil => simp [leadsWith]
    | cons b bs =>
      rw [leadsWith, Bool.and_eq_true, beq_iff_eq, ih]
      constructor
      · rintro ⟨rfl, rest, rfl⟩; exact ⟨rest, rfl⟩
      · rintro ⟨rest, heq⟩
        rw [List.cons_append] at heq
        injection heq with h1 h2
        exact ⟨h1.symm, rest, h2⟩

theorem hasSub_iff (needle : List Char) :
    ∀ hay : List Char, hasSub needle hay = true ↔ ∃ p q, hay = p ++ needle ++ q := by
  intro hay
  induction hay with
  | nil =>
    rw [hasSub, leadsWith_iff]
    constructor
    · rintro ⟨rest, h⟩; exact ⟨[], rest, by simpa using h⟩
    · rintro ⟨p, q, h⟩
      have h2 := h.symm
      simp only [List.append_assoc, List.append_eq_nil] at h2
      exact ⟨q, by simp [h2.1, h2.2.1, h2.2.2]⟩
  | cons b bs ih =>
    rw [hasSub, Bool.or_eq_true, leadsWith_iff, ih]
    constructor
    · rintro (⟨rest, h⟩ | ⟨p, q, h⟩)
      · exact ⟨[], rest, by simpa using h⟩
      · exact ⟨b :: p, q, by simp [h]⟩
    · rintro ⟨p, q, h⟩
      cases p with
      | nil => exact Or.inl ⟨q, by simpa using h⟩
      | cons x ps =>
        rw [List.cons_append, List.cons_append] at h
        injection h with h1 h2
        exact Or.inr ⟨ps, q, by simpa using h2⟩

/-- `'currency_metrics.csv' in file_path.lower()` (line 156). -/
def isCurrencyMetricsPath (filePath : String) : Bool :=
  hasSub "currency_metrics.csv".toList (filePath.toList.map Char.toLower)

/-- `file_name.split('_')[0] if '_' in file_name else file_name.split('.')[0]`
(line 120). -/
def featureTypeOf (fileName : String) : String :=
  if fileName.toList.contains '_'
  then String.mk (fileName.toList.takeWhile (fun a => !(a == '_')))
  else String.mk (fileName.toList.takeWhile (fun a => !(a == '.')))

/-- The name under which a feature-file column enters the combined table
(lines 148-163); `none` when the column is skipped. -/
def featureColumnName (filePath fileName col : String) : Option String :=
  if col = "Date" then none
  else if col = "Miner Revenue (USD)" then none
  else if isCurrencyMetricsPath filePath && (col = "BTC/USD" || col = "Gold/BTC Ratio")
  then some col
  else some (featureTypeOf fileName ++ " " ++ col)

/-- The averaged-exchange metrics (line 68). -/
def standardColumns : List String :=
  ["Open", "High", "Low", "Close", "Adj Close", "Volume", "CloseUSD"]

/-- The exchange column names of the combined table (lines 69-82): every
standard metric, prefixed. -/
def exchangeColumnNames : List String := standardColumns.map (fun c => "AVG " ++ c)

/-- `'Currency' in col` (line 222), case-sensitive. -/
def containsCurrency (col : String) : Bool := hasSub "Currency".toList col.toList

/-- The column drop performed just before saving (lines 222-225). -/
def dropCurrencyColumns (cols : List String) : List String :=
  cols.filter (fun c => !containsCurrency c)

/-- C9: every column added to the combined table is named
`<namespace> <metric>` — "AVG " plus the metric for exchange columns, the
feature type plus a single space plus the column for feature columns —
except BTC/USD and Gold/BTC Ratio coming from a currency_metrics.csv file,
which keep their bare names. -/
theorem column_naming_convention :
    (∀ filePath fileName col name : String,
        featureColumnName filePath fileName col = some name →
          name = featureTypeOf fileName ++ " " ++ col
            ∨ (isCurrencyMetricsPath filePath = true
                ∧ (col = "BTC/USD" ∨ col = "Gold/BTC Ratio") ∧ name = col))
      ∧ (∀ filePath fileName col : String,
          isCurrencyMetricsPath filePath = true →
          (col = "BTC/USD" ∨ col = "Gold/BTC Ratio") →
          featureColumnName filePath fileName col = some col)
      ∧ ∀ name ∈ exchangeColumnNames, ∃ c ∈ standardColumns, name = "AVG " ++ c := by
  refine ⟨?_, ?_, ?_⟩
  · intro filePath fileName col name h
    rw [featureColumnName] at h
    by_cases h1 : col = "Date"
    · rw [if_pos h1] at h; exact Option.noConfusion h
    rw [if_neg h1] at h
    by_cases h2 : col = "Miner Revenue (USD)"
    · rw [if_pos h2] at h; exact Option.noConfusion h
    rw [if_neg h2] at h
    by_cases h3 : (isCurrencyMetricsPath filePath && (col = "BTC/USD" || col = "Gold/BTC Ratio")) = true
    · rw [if_pos h3] at h
      rw [Bool.and_eq_true, Bool.or_eq_true, decide_eq_true_eq, decide_eq_true_eq] at h3
      exact Or.inr ⟨h3.1, h3.2, (Option.some.injEq _ _ ▸ h).symm⟩
    · rw [if_neg h3] at h
      exact Or.inl (Option.some.injEq _ _ ▸ h).symm
  · intro filePath fileName col hp hc
    have h1 : col ≠ "Date" := by
      rcases hc with rfl | rfl <;> decide
    have h2 : col ≠ "Miner Revenue (USD)" := by
      rcases hc with rfl | rfl <;> decide
    have h3 : (isCurrencyMetricsPath filePath && (col = "BTC/USD" || col = "Gold/BTC Ratio")) = true := by
      rw [Bool.and_eq_true, Bool.or_eq_true, decide_eq_true_eq, decide_eq_true_eq]
      exact ⟨hp, hc⟩
    rw [featureColumnName, if_neg h1, if_neg h2, if_pos h3]
  · intro name hn
    rcases List.mem_map.mp hn with ⟨c, hc, rfl⟩
    exact ⟨c, hc, rfl⟩

/-- C9 witness: the BTC/USD column of the currency metrics file keeps its
bare name. -/
theorem column_naming_convention_witness :
    featureColumnName "datasets/additional_features/currency_metrics.csv"
        "currency_metrics.csv" "BTC/USD" = some "BTC/USD" :=
  column_naming_convention.2.1 _ _ _ (by decide) (Or.inl rfl)

/-- C10 counterexample: the column "currency Currency_Gold" begins with the
lowercase prefix "currency", yet it is dropped by the pre-save filter
because it also contains the case-sensitive substring "Currency" — so
"begins with lowercase currency" does not guarantee retention. -/
theorem lowercase_currency_column_dropped :
    leadsWith "currency".toList "currency Currency_Gold".toList = true
      ∧ containsCurrency "currency Currency_Gold" = true
      ∧ dropCurrencyColumns ["Date", "currency Currency_Gold"] = ["Date"] := by
  refine ⟨by decide, by decide, by decide⟩

/-- C10 (amended): the pre-save filter keeps exactly the columns whose
names do not contain the case-sensitive substring "Currency"; hence no
published column contains "Currency", and a column beginning with
lowercase "currency" is retained iff it contains "Currency" nowhere in its
name.  The bare lowercase-prefixed names the pipeline itself produces,
such as "currency BTC/USD", are retained. -/
theorem currency_columns_filter :
    (∀ (cols : List String) (c : String),
        c ∈ dropCurrencyColumns cols ↔ c ∈ cols ∧ containsCurrency c = false)
      ∧ (∀ (cols : List String) (c : String), c ∈ dropCurrencyColumns cols →
          ¬ ∃ p q, c.toList = p ++ "Currency".toList ++ q)
      ∧ containsCurrency "currency BTC/USD" = false := by
  have hmem : ∀ (cols : List String) (c : String),
      c ∈ dropCurrencyColumns cols ↔ c ∈ cols ∧ containsCurrency c = false := by
    intro cols c
    rw [dropCurrencyColumns, List.mem_filter, Bool.not_eq_true']
  refine ⟨hmem, ?_, by decide⟩
  intro cols c hc hex
  have h1 := ((hmem cols c).mp hc).2
  have h2 := (hasSub_iff "Currency".toList c.toList).mpr hex
  rw [containsCurrency] at h1
  rw [h1] at h2
  exact Bool.noConfusion h2

/-- C10 witness: "Date" survives the filter and indeed contains no
"Currency" substring. -/
theorem currency_columns_filter_witness :
    ¬ ∃ p q, "Date".toList = p ++ "Currency".toList ++ q :=
  currency_columns_filter.2.1 ["Date"] "Date" (by decide)

end MscPipeline
